import Mathlib

/-!
Verification of the boundary-alignment planner and chunk-extraction pipeline
of the `shred` repository (src/shred.go), as a shallow embedding in Lean.

Bytes are modelled as natural numbers, files as `List Byte`, Go `int64`
values as `Int` (the program's offsets and sizes stay far below 2^63, so
overflow is not modelled).  The memory-mapped source (`golang.org/x/exp/mmap`)
exposes `ReadAt`, which errors on an out-of-range offset and reports `io.EOF`
together with a short count when the read runs past the end of the file.
-/

namespace Shred

/-- A Go byte, modelled as a natural number. -/
abbrev Byte := Nat

/-- The line-terminator byte recognized by the planner (newline). -/
def nl : Byte := 10

/-- `Section` from src/shred.go (lines 159-162): a pair of byte offsets.
The source names the second field `end`, which is a Lean keyword; it is
called `fin` here.  The range is inclusive: the reader built from a section
delivers `fin - off + 1` bytes. -/
structure Section where
  off : Int
  fin : Int
deriving DecidableEq

/-- `bytes.LastIndexByte`: index of the last occurrence of `c` in `l`,
or `-1` when `c` does not occur. -/
def lastIndexByte : List Byte → Byte → Int
  | [], _ => -1
  | b :: rest, c =>
    let r := lastIndexByte rest c
    if 0 ≤ r then r + 1 else if b = c then 0 else -1

/-- The bytes delivered by `mmap.ReaderAt.ReadAt` into a buffer of length
`len` at offset `off`: nothing when the offset is out of range, otherwise
the bytes from `off` up to the buffer length or the end of the file. -/
def readAtBuf (file : List Byte) (off : Int) (len : Nat) : List Byte :=
  if off < 0 ∨ (file.length : Int) < off then []
  else (file.drop off.toNat).take len

/-- Whether `mmap.ReaderAt.ReadAt` reports an error for this read: it does
for an out-of-range offset, and it returns `io.EOF` whenever fewer than
`len` bytes were available. -/
def readAtErr (file : List Byte) (off : Int) (len : Nat) : Bool :=
  if off < 0 ∨ (file.length : Int) < off then true
  else decide (((file.drop off.toNat).take len).length < len)

/-- The lookback-window length chosen by the planner (src/shred.go
lines 55-58): `page := 4096; if page > size { page = size }`. -/
def pageOf (size : Int) : Int :=
  if 4096 > size then size else 4096

/-- The terminator-position computation of the planner (src/shred.go
lines 70-76): when the read returned fewer than `page` bytes the returned
count `n` itself is used as the position; otherwise the window is searched
backward for the last newline. -/
def chunkLast (page n : Int) (buf : List Byte) : Int :=
  if n < page then n else lastIndexByte buf nl

/-- Outcome of one pass of the planning loop body. -/
inductive StepOut where
  | done
  | fail
  | emit (s : Section) (offset' : Int)
deriving DecidableEq

/-- One pass of the `chunkyBySize` loop body (src/shred.go lines 60-82):
when `offset < fsize`, compute `next = offset + size`; if `next` overshoots
the file the section ends at `fsize`, otherwise the final page of the
section is read and the cut is moved back to the last newline in it; the
section `{offset, next}` is emitted and the next offset is `next + 1`.
A failed window read returns the error (`fail`). -/
def planStep (file : List Byte) (size offset : Int) : StepOut :=
  let fsize : Int := file.length
  if offset < fsize then
    let next := offset + size
    if next > fsize then
      .emit ⟨offset, fsize⟩ (fsize + 1)
    else
      let page := pageOf size
      if readAtErr file (next - page) page.toNat then .fail
      else
        let buf := readAtBuf file (next - page) page.toNat
        let last := chunkLast page (buf.length : Int) buf
        let next2 := offset + size - page + last
        .emit ⟨offset, next2⟩ (next2 + 1)
  else .done

/-- Result of running the planning loop: normal return, early return with a
read error (the sections planned so far are returned alongside it, as in
`return sections, err`), or failure to terminate within the given fuel. -/
inductive PlanResult where
  | ok (sections : List Section)
  | err (sections : List Section)
  | diverge
deriving DecidableEq

/-- The `for offset < fsize` loop of `chunkyBySize`, with explicit fuel.
Sections are appended in emission order. -/
def chunkyLoop (file : List Byte) (size : Int) :
    Int → List Section → Nat → PlanResult
  | _, _, 0 => .diverge
  | offset, acc, fuel + 1 =>
    match planStep file size offset with
    | .done => .ok acc
    | .fail => .err acc
    | .emit s offset' => chunkyLoop file size offset' (acc ++ [s]) fuel

/-- Fuel that suffices for any terminating run of the loop: the offset never
decreases, and every terminating run strictly increases it each pass. -/
def planFuel (file : List Byte) : Nat := file.length + 2

/-- `chunkyBySize` (src/shred.go lines 46-84): a size larger than the file
yields the single section `{0, fsize}`; otherwise the planning loop runs
from offset 0. -/
def chunkyBySize (file : List Byte) (size : Int) : PlanResult :=
  let fsize : Int := file.length
  if size > fsize then .ok [⟨0, fsize⟩]
  else chunkyLoop file size 0 [] (planFuel file)

/-- The bytes a section's reader delivers: `Segment` builds a reader of
nominal length `fin - off + 1` starting at `off`, and the mmap `ReadAt`
clips it at the end of the file. -/
def secBytes (file : List Byte) (s : Section) : List Byte :=
  (file.drop s.off.toNat).take (s.fin - s.off + 1).toNat

/-- Whether byte offset `b` lies in the (inclusive) read range of section
`s`. -/
def inSecB (s : Section) (b : Int) : Bool :=
  decide (s.off ≤ b) && decide (b ≤ s.fin)

/-- Every length-`w` window of the file contains a newline.  This is the
hypothesis under which the planner's cuts are guaranteed to land on
terminators. -/
def windowsOK (file : List Byte) (w : Nat) : Bool :=
  (List.range (file.length + 1)).all fun i =>
    decide (file.length < i + w) || decide (nl ∈ (file.drop i).take w)

/-- The planner invariant on a section list starting at `offset`: each
section starts exactly where told, does not run backwards, ends within the
file, every non-final section's inclusive end byte is a newline, and the
final offset reaches the end of the file. -/
def wellPlanned (file : List Byte) (fsize : Int) : Int → List Section → Bool
  | offset, [] => decide (fsize ≤ offset)
  | offset, s :: rest =>
    decide (s.off = offset) && decide (s.off ≤ s.fin) && decide (s.fin ≤ fsize) &&
      (rest.isEmpty || (file.getD s.fin.toNat 0 == nl)) &&
      wellPlanned file fsize (s.fin + 1) rest

/-- The state of `mreader` (src/shred.go lines 246-263): the mapped file, a
cursor, and the remaining byte count of the section. -/
structure Mreader where
  mm : List Byte
  offset : Int
  size : Int
deriving DecidableEq

/-- Errors an `mreader.Read` call can report. -/
inductive RdErr where
  | eof
  | invalid
deriving DecidableEq

/-- `mreader.Read` (src/shred.go lines 252-263): the request is clipped to
the remaining count, forwarded to `ReadAt` at the cursor, the cursor and
remaining count advance by the bytes returned, and when the remaining count
reaches zero without another error the call reports `io.EOF`. -/
def Mreader.read (m : Mreader) (blen : Nat) : List Byte × Option RdErr × Mreader :=
  let blen' := if (blen : Int) > m.size then m.size.toNat else blen
  if m.offset < 0 ∨ (m.mm.length : Int) < m.offset then
    ([], some .invalid, m)
  else
    let buf := (m.mm.drop m.offset.toNat).take blen'
    let n := buf.length
    let e0 : Option RdErr := if n < blen' then some .eof else none
    let m2 : Mreader := ⟨m.mm, m.offset + n, m.size - n⟩
    let e : Option RdErr := if m2.size = 0 ∧ e0 = none then some .eof else e0
    (buf, e, m2)

/-- `Segment` (src/shred.go lines 279-282): the reader for one section,
with nominal length `fin - offset + 1`. -/
def Segment (mm : List Byte) (offset fin : Int) : Mreader :=
  ⟨mm, offset, fin - offset + 1⟩

/-- Drains a reader as `io.Copy` does: repeated `Read` calls with a buffer
of length `blen`, accumulating the bytes delivered, stopping at the first
call that reports any error (`io.EOF` ends the copy normally). -/
def readAll (m : Mreader) (blen : Nat) : Nat → List Byte
  | 0 => []
  | fuel + 1 =>
    let r := m.read blen
    match r.2.1 with
    | some _ => r.1
    | none => r.1 ++ readAll r.2.2 blen fuel

/-- The full byte sequence delivered for the section `{start, fin}`, with
fuel large enough for the reader to drain. -/
def segRead (file : List Byte) (start fin : Int) (blen : Nat) : List Byte :=
  readAll (Segment file start fin) blen (fin - start + 2).toNat

/-- The completions pre-registered by `FileChunks` (src/shred.go line 198):
`wg.Add(len(sections))` before the submission loop. -/
def wgExpected (sections : List Section) : Nat := sections.length

/-- The completion signals actually emitted by the submission loop
(src/shred.go lines 199-213): sections are walked in order; a failed
semaphore acquire breaks out of the loop; each successfully submitted
section's goroutine calls `wg.Done()` exactly once.  `acqs` lists each
iteration's acquire outcome. -/
def doneSignals : List Bool → Nat
  | [] => 0
  | ok :: rest => if ok then doneSignals rest + 1 else 0

/-- Whether `wg.Wait()` at the end of `FileChunks` can return: it does
exactly when every pre-registered completion was signalled. -/
def wgWaitReturns (sections : List Section) (acqs : List Bool) : Bool :=
  doneSignals acqs == wgExpected sections

/-- Unrecoverable planning errors of a run. -/
inductive RunError where
  | openError
  | planReadError
deriving DecidableEq

/-- `ChunksBySize` over a filesystem view: `none` means the source cannot
be opened.  Mirrors that `chunkyBySize` hands back the partial section list
alongside a read error. -/
def chunksBySizeRun (fs : Option (List Byte)) (size : Int) :
    List Section × Option RunError :=
  match fs with
  | none => ([], some .openError)
  | some file =>
    match chunkyBySize file size with
    | .ok s => (s, none)
    | .err s => (s, some .planReadError)
    | .diverge => ([], none)

/-- `ChunkFile` (src/shred.go lines 219-228): the planning error is only
printed, never returned, and `FileChunks` runs on whatever list came back.
`FileChunks` re-opens the source itself; when that open fails it returns
before extracting anything.  Result: `none` when planning never terminates,
otherwise `some (sections actually handed to extraction, whether the run
returned an error)`. -/
def chunkFileRun (fs : Option (List Byte)) (size : Int) :
    Option (List Section × Bool) :=
  match fs with
  | none => some ([], true)
  | some file =>
    match chunkyBySize file size with
    | .ok s => some (s, false)
    | .err s => some (s, false)
    | .diverge => none

/-! ### Facts about `lastIndexByte` -/

theorem lastIndexByte_ge_neg_one (l : List Byte) (c : Byte) :
    -1 ≤ lastIndexByte l c := by
  induction l with
  | nil => simp [lastIndexByte]
  | cons b rest ih =>
    simp only [lastIndexByte]
    split
    · omega
    · split <;> omega

theorem lastIndexByte_lt_length (l : List Byte) (c : Byte) :
    lastIndexByte l c < (l.length : Int) := by
  induction l with
  | nil => simp [lastIndexByte]
  | cons b rest ih =>
    simp only [lastIndexByte, List.length_cons]
    split
    · push_cast; omega
    · split <;> (push_cast; omega)

theorem lastIndexByte_nonneg_of_mem {l : List Byte} {c : Byte} (h : c ∈ l) :
    0 ≤ lastIndexByte l c := by
  induction l with
  | nil => simp at h
  | cons b rest ih =>
    simp only [lastIndexByte]
    rcases List.mem_cons.mp h with hb | hr
    · split
      · omega
      · simp [hb.symm]
    · have := ih hr
      split
      · omega
      · omega

theorem getD_lastIndexByte {l : List Byte} {c : Byte}
    (h : 0 ≤ lastIndexByte l c) :
    l.getD (lastIndexByte l c).toNat 0 = c := by
  induction l with
  | nil => simp [lastIndexByte] at h
  | cons b rest ih =>
    simp only [lastIndexByte] at h ⊢
    split
    · next hr =>
      have ht : (lastIndexByte rest c + 1).toNat = (lastIndexByte rest c).toNat + 1 := by
        omega
      rw [ht, List.getD_cons_succ]
      exact ih hr
    · next hr =>
      split
      · next hb => simp [hb]
      · next hb =>
        rw [if_neg hr, if_neg hb] at h
        omega

/-! ### Facts about the mmap read model and the window size -/

theorem readAtBuf_in_range {file : List Byte} {off : Int} {len : Nat}
    (h0 : 0 ≤ off) (h1 : off ≤ (file.length : Int)) :
    readAtBuf file off len = (file.drop off.toNat).take len := by
  unfold readAtBuf
  rw [if_neg]
  push_neg
  exact ⟨by omega, h1⟩

theorem readAtBuf_full {file : List Byte} {off : Int} {len : Nat}
    (h0 : 0 ≤ off) (h1 : off + len ≤ (file.length : Int)) :
    (readAtBuf file off len).length = len := by
  rw [readAtBuf_in_range h0 (by omega)]
  simp only [List.length_take, List.length_drop]
  omega

theorem readAtErr_false {file : List Byte} {off : Int} {len : Nat}
    (h0 : 0 ≤ off) (h1 : off + len ≤ (file.length : Int)) :
    readAtErr file off len = false := by
  unfold readAtErr
  rw [if_neg]
  · simp only [decide_eq_false_iff_not, not_lt, List.length_take, List.length_drop]
    omega
  · push_neg
    exact ⟨by omega, by omega⟩

theorem getD_readAtBuf {file : List Byte} {off : Int} {len k : Nat}
    (h0 : 0 ≤ off) (h1 : off ≤ (file.length : Int))
    (hk : k < (readAtBuf file off len).length) :
    (readAtBuf file off len).getD k 0 = file.getD (off.toNat + k) 0 := by
  rw [readAtBuf_in_range h0 h1] at hk ⊢
  have hklen : k < len := by
    simp only [List.length_take] at hk
    omega
  rw [List.getD_eq_getElem?_getD, List.getD_eq_getElem?_getD,
    List.getElem?_take, if_pos hklen, List.getElem?_drop]

theorem pageOf_nonneg {size : Int} (h : 0 ≤ size) : 0 ≤ pageOf size := by
  unfold pageOf
  split <;> omega

theorem pageOf_le (size : Int) : pageOf size ≤ size := by
  unfold pageOf
  split <;> omega

theorem windowsOK_spec {file : List Byte} {w : Nat} (h : windowsOK file w = true)
    (i : Nat) (hi : i + w ≤ file.length) : nl ∈ (file.drop i).take w := by
  unfold windowsOK at h
  rw [List.all_eq_true] at h
  have hm : i ∈ List.range (file.length + 1) := by
    rw [List.mem_range]
    omega
  have := h i hm
  rcases Bool.or_eq_true_iff.mp this with hbad | hok
  · rw [decide_eq_true_iff] at hbad
    omega
  · exact decide_eq_true_iff.mp hok

/-! ### Characterization of one planning pass -/

theorem planStep_spec (file : List Byte) (size offset : Int)
    (hs : 0 ≤ size) (ho : 0 ≤ offset) :
    ((file.length : Int) ≤ offset ∧ planStep file size offset = .done) ∨
    (offset < (file.length : Int) ∧ ∃ cut,
      planStep file size offset = .emit ⟨offset, cut⟩ (cut + 1) ∧
      offset - 1 ≤ cut ∧ cut ≤ (file.length : Int) ∧
      ((cut = (file.length : Int) ∧ (file.length : Int) < offset + size) ∨
        (offset + size ≤ (file.length : Int) ∧
          (readAtBuf file (offset + size - pageOf size) (pageOf size).toNat).length
            = (pageOf size).toNat ∧
          cut = offset + size - pageOf size +
            lastIndexByte (readAtBuf file (offset + size - pageOf size) (pageOf size).toNat) nl ∧
          (0 ≤ lastIndexByte (readAtBuf file (offset + size - pageOf size) (pageOf size).toNat) nl →
            file.getD cut.toNat 0 = nl)))) := by
  by_cases hlt : offset < (file.length : Int)
  case neg =>
    left
    refine ⟨by omega, ?_⟩
    unfold planStep
    rw [if_neg hlt]
  case pos =>
    right
    refine ⟨hlt, ?_⟩
    by_cases hnext : offset + size > (file.length : Int)
    case pos =>
      refine ⟨(file.length : Int), ?_, by omega, le_refl _, Or.inl ⟨rfl, by omega⟩⟩
      unfold planStep
      rw [if_pos hlt, if_pos hnext]
    case neg =>
      push_neg at hnext
      have hp0 : 0 ≤ pageOf size := pageOf_nonneg hs
      have hple : pageOf size ≤ size := pageOf_le size
      have hpt : ((pageOf size).toNat : Int) = pageOf size := Int.toNat_of_nonneg hp0
      have hoff0 : 0 ≤ offset + size - pageOf size := by omega
      have hofflen : offset + size - pageOf size + ((pageOf size).toNat : Int) ≤
          (file.length : Int) := by omega
      have herr : readAtErr file (offset + size - pageOf size) (pageOf size).toNat = false :=
        readAtErr_false hoff0 hofflen
      have hfull : (readAtBuf file (offset + size - pageOf size) (pageOf size).toNat).length
          = (pageOf size).toNat :=
        readAtBuf_full hoff0 hofflen
      set buf := readAtBuf file (offset + size - pageOf size) (pageOf size).toNat with hbuf
      have hlast : chunkLast (pageOf size) (buf.length : Int) buf = lastIndexByte buf nl := by
        unfold chunkLast
        rw [if_neg]
        rw [hfull, hpt]
        omega
      set last := lastIndexByte buf nl with hlastdef
      have hlge : -1 ≤ last := lastIndexByte_ge_neg_one buf nl
      have hllt : last < (buf.length : Int) := lastIndexByte_lt_length buf nl
      have hllt2 : last < pageOf size := by
        rw [hfull, hpt] at hllt
        exact hllt
      refine ⟨offset + size - pageOf size + last, ?_, by omega, by omega,
        Or.inr ⟨hnext, hfull, rfl, ?_⟩⟩
      · unfold planStep
        rw [if_pos hlt, if_neg (by omega : ¬ offset + size > (file.length : Int))]
        rw [if_neg (by rw [herr]; exact Bool.false_ne_true)]
        simp only [hlast]
      · intro hl0
        have hkk : last.toNat < buf.length := by omega
        have h1 : buf.getD last.toNat 0 = nl := by
          have := getD_lastIndexByte (l := buf) (c := nl) (by rw [← hlastdef]; exact hl0)
          rw [← hlastdef] at this
          exact this
        have h2 : buf.getD last.toNat 0 = file.getD ((offset + size - pageOf size).toNat + last.toNat) 0 := by
          rw [hbuf]
          exact getD_readAtBuf hoff0 (by omega) (by rw [← hbuf]; exact hkk)
        have h3 : (offset + size - pageOf size + last).toNat
            = (offset + size - pageOf size).toNat + last.toNat := by omega
        rw [h3, ← h2, h1]

/-! ### Loop invariants of the planner -/

theorem chunkyLoop_concat (file : List Byte) (size : Int) (hs : 0 ≤ size) :
    ∀ (fuel : Nat) (offset : Int) (acc sections : List Section),
    0 ≤ offset →
    (acc.map (secBytes file)).flatten = file.take offset.toNat →
    chunkyLoop file size offset acc fuel = .ok sections →
    (sections.map (secBytes file)).flatten = file := by
  intro fuel
  induction fuel with
  | zero =>
    intro offset acc sections _ _ hrun
    simp [chunkyLoop] at hrun
  | succ n ih =>
    intro offset acc sections ho hacc hrun
    rcases planStep_spec file size offset hs ho with ⟨hge, hstep⟩ |
      ⟨hlt, cut, hstep, hcl, hcu, _⟩
    · simp only [chunkyLoop, hstep] at hrun
      rw [PlanResult.ok.injEq] at hrun
      subst hrun
      rw [hacc]
      exact List.take_of_length_le (by omega)
    · simp only [chunkyLoop, hstep] at hrun
      refine ih (cut + 1) (acc ++ [⟨offset, cut⟩]) sections (by omega) ?_ hrun
      rw [List.map_append, List.flatten_append, hacc]
      show file.take offset.toNat ++ ([secBytes file ⟨offset, cut⟩]).flatten
        = file.take (cut + 1).toNat
      have hsec : ([secBytes file ⟨offset, cut⟩]).flatten = secBytes file ⟨offset, cut⟩ := by
        simp
      rw [hsec]
      unfold secBytes
      have harith : (cut + 1).toNat = offset.toNat + (cut - offset + 1).toNat := by omega
      rw [harith, List.take_add]

theorem chunkyLoop_ne_err (file : List Byte) (size : Int) (hs : 0 ≤ size) :
    ∀ (fuel : Nat) (offset : Int) (acc s : List Section),
    0 ≤ offset → chunkyLoop file size offset acc fuel ≠ .err s := by
  intro fuel
  induction fuel with
  | zero =>
    intro offset acc s _ h
    simp [chunkyLoop] at h
  | succ n ih =>
    intro offset acc s ho h
    rcases planStep_spec file size offset hs ho with ⟨_, hstep⟩ |
      ⟨_, cut, hstep, hcl, _, _⟩
    · simp [chunkyLoop, hstep] at h
    · simp only [chunkyLoop, hstep] at h
      exact ih (cut + 1) (acc ++ [⟨offset, cut⟩]) s (by omega) h

theorem chunkyBySize_ne_err (file : List Byte) (size : Int) (hs : 0 ≤ size)
    (s : List Section) : chunkyBySize file size ≠ .err s := by
  simp only [chunkyBySize]
  split
  · intro h
    simp at h
  · exact chunkyLoop_ne_err file size hs (planFuel file) 0 [] s le_rfl

theorem wellPlanned_nil_of_lt {file : List Byte} {fsize offset : Int}
    {l : List Section} (hgt : fsize < offset)
    (h : wellPlanned file fsize offset l = true) : l = [] := by
  cases l with
  | nil => rfl
  | cons s rest =>
    exfalso
    simp only [wellPlanned, Bool.and_eq_true, decide_eq_true_eq] at h
    omega

theorem chunkyLoop_wellPlanned (file : List Byte) (size : Int) (hs : 0 ≤ size)
    (hw : windowsOK file (pageOf size).toNat = true) :
    ∀ (fuel : Nat) (offset : Int) (acc sections : List Section),
    0 ≤ offset →
    chunkyLoop file size offset acc fuel = .ok sections →
    ∃ suffix, sections = acc ++ suffix ∧
      wellPlanned file (file.length : Int) offset suffix = true := by
  intro fuel
  induction fuel with
  | zero =>
    intro offset acc sections _ h
    simp [chunkyLoop] at h
  | succ n ih =>
    intro offset acc sections ho hrun
    rcases planStep_spec file size offset hs ho with ⟨hge, hstep⟩ |
      ⟨hlt, cut, hstep, hcl, hcu, hcase⟩
    · simp only [chunkyLoop, hstep] at hrun
      rw [PlanResult.ok.injEq] at hrun
      subst hrun
      refine ⟨[], by simp, ?_⟩
      simp only [wellPlanned, decide_eq_true_eq]
      omega
    · simp only [chunkyLoop, hstep] at hrun
      obtain ⟨suffix, hsec, hwp⟩ :=
        ih (cut + 1) (acc ++ [⟨offset, cut⟩]) sections (by omega) hrun
      have hlast0 : offset + size ≤ (file.length : Int) →
          0 ≤ lastIndexByte
            (readAtBuf file (offset + size - pageOf size) (pageOf size).toNat) nl := by
        intro hle
        have hp0 : 0 ≤ pageOf size := pageOf_nonneg hs
        have hple := pageOf_le size
        have hoff0 : 0 ≤ offset + size - pageOf size := by omega
        have hmem : nl ∈ (file.drop (offset + size - pageOf size).toNat).take
            (pageOf size).toNat := by
          apply windowsOK_spec hw
          omega
        rw [readAtBuf_in_range hoff0 (by omega)]
        exact lastIndexByte_nonneg_of_mem hmem
      have hoffcut : offset ≤ cut := by
        rcases hcase with ⟨hcf, _⟩ | ⟨hle, _, hcut, _⟩
        · omega
        · have hl0 := hlast0 hle
          have hple := pageOf_le size
          omega
      have hterm_or : suffix.isEmpty = true ∨ file.getD cut.toNat 0 = nl := by
        rcases hcase with ⟨hcf, _⟩ | ⟨hle, _, _, hgd⟩
        · left
          have hnil : suffix = [] := by
            apply wellPlanned_nil_of_lt (by omega) hwp
          rw [hnil]
          rfl
        · right
          exact hgd (hlast0 hle)
      refine ⟨⟨offset, cut⟩ :: suffix, ?_, ?_⟩
      · rw [hsec, List.append_assoc]
        rfl
      · simp only [wellPlanned, Bool.and_eq_true, decide_eq_true_eq,
          Bool.or_eq_true_iff, beq_iff_eq]
        exact ⟨⟨⟨⟨trivial, hoffcut⟩, hcu⟩, hterm_or⟩, hwp⟩

/-! ### Facts about the section reader -/

theorem Mreader.read_le (m : Mreader) (blen : Nat) (h : 0 ≤ m.size) :
    ((m.read blen).1.length : Int) ≤ m.size := by
  simp only [Mreader.read]
  by_cases hg : m.offset < 0 ∨ (m.mm.length : Int) < m.offset
  · rw [if_pos hg]
    simpa using h
  · rw [if_neg hg]
    simp only [List.length_take, List.length_drop]
    by_cases hb : (blen : Int) > m.size
    · rw [if_pos hb]
      omega
    · rw [if_neg hb]
      push_neg at hb
      omega

theorem Mreader.read_advance (m : Mreader) (blen : Nat) :
    (m.read blen).2.2.offset = m.offset + ((m.read blen).1.length : Int) ∧
    (m.read blen).2.2.size = m.size - ((m.read blen).1.length : Int) := by
  simp only [Mreader.read]
  by_cases hg : m.offset < 0 ∨ (m.mm.length : Int) < m.offset
  · rw [if_pos hg]
    simp
  · rw [if_neg hg]
    simp

theorem Mreader.read_exhausted (m : Mreader) (blen : Nat)
    (hsz : m.size = 0) (h0 : 0 ≤ m.offset) (hle : m.offset ≤ (m.mm.length : Int)) :
    m.read blen = ([], some .eof, m) := by
  simp only [Mreader.read]
  rw [if_neg (by push_neg; exact ⟨by omega, hle⟩)]
  have hb : (if (blen : Int) > m.size then m.size.toNat else blen) = 0 := by
    split <;> omega
  rw [hb]
  simp [hsz]
  rw [← hsz]

theorem Mreader.read_full (file : List Byte) (offset size : Int) (blen : Nat)
    (h0 : 0 ≤ offset) (hs : 0 ≤ size) (hle : offset + size ≤ (file.length : Int)) :
    (⟨file, offset, size⟩ : Mreader).read blen =
      ((file.drop offset.toNat).take (min blen size.toNat),
        (if size - ((min blen size.toNat : Nat) : Int) = 0 then some .eof else none),
        ⟨file, offset + ((min blen size.toNat : Nat) : Int),
          size - ((min blen size.toNat : Nat) : Int)⟩) := by
  simp only [Mreader.read]
  rw [if_neg (by push_neg; constructor <;> (dsimp only; omega))]
  have hbl : (if (blen : Int) > ((⟨file, offset, size⟩ : Mreader)).size
      then ((⟨file, offset, size⟩ : Mreader)).size.toNat else blen) = min blen size.toNat := by
    dsimp only
    split <;> omega
  rw [hbl]
  have hn : ((file.drop ((⟨file, offset, size⟩ : Mreader)).offset.toNat).take
      (min blen size.toNat)).length = min blen size.toNat := by
    dsimp only
    simp only [List.length_take, List.length_drop]
    omega
  rw [hn]
  rw [if_neg (lt_irrefl _)]
  simp

theorem readAll_drain :
    ∀ (fuel : Nat) (file : List Byte) (offset size : Int) (blen : Nat),
    0 ≤ offset → 0 ≤ size → offset + size ≤ (file.length : Int) → 0 < blen →
    size.toNat < fuel →
    readAll ⟨file, offset, size⟩ blen fuel = (file.drop offset.toNat).take size.toNat := by
  intro fuel
  induction fuel with
  | zero =>
    intro file offset size blen _ _ _ _ hf
    omega
  | succ n ih =>
    intro file offset size blen ho hsz hlen hb hf
    have hread := Mreader.read_full file offset size blen ho hsz hlen
    simp only [readAll, hread]
    by_cases hend : size - ((min blen size.toNat : Nat) : Int) = 0
    · rw [if_pos hend]
      have : min blen size.toNat = size.toNat := by omega
      rw [this]
    · rw [if_neg hend]
      have hbl1 : 1 ≤ min blen size.toNat := by omega
      have hrec := ih file (offset + ((min blen size.toNat : Nat) : Int))
        (size - ((min blen size.toNat : Nat) : Int)) blen
        (by omega) (by omega) (by omega) hb (by omega)
      rw [hrec]
      have h1 : (offset + ((min blen size.toNat : Nat) : Int)).toNat
          = offset.toNat + min blen size.toNat := by omega
      have h2 : (size - ((min blen size.toNat : Nat) : Int)).toNat
          = size.toNat - min blen size.toNat := by omega
      rw [h1, h2]
      rw [show file.drop (offset.toNat + min blen size.toNat)
          = (file.drop offset.toNat).drop (min blen size.toNat) from
        (List.drop_drop _ _ _).symm]
      rw [← List.take_add]
      have h3 : min blen size.toNat + (size.toNat - min blen size.toNat)
          = size.toNat := by omega
      rw [h3]

/-! ### Claim C1 -/

/-- C1 (counterexample): for the file "a\nb\n" and target size 2 the planner
produces the sections {0,1} and {2,3}; inserting one terminator byte at the
boundary between them, as the claim prescribes, does not reproduce the file
(the chunk contents alone already do, since each chunk's inclusive read
range ends with its boundary terminator). -/
theorem C1_counterexample :
    chunkyBySize [97, 10, 98, 10] 2 = .ok [⟨0, 1⟩, ⟨2, 3⟩] ∧
    secBytes [97, 10, 98, 10] ⟨0, 1⟩ ++ [nl] ++ secBytes [97, 10, 98, 10] ⟨2, 3⟩
      ≠ [97, 10, 98, 10] := by decide

/-- C1 (amended): concatenating the byte contents of all output chunks in
section order alone reproduces the source file byte-for-byte; no terminator
bytes are inserted between chunks (each boundary terminator is already the
last byte of the preceding chunk's inclusive read range) and `ChunkFile`
skips no leading lines. -/
theorem C1_concat_reproduces_file (file : List Byte) (size : Int)
    (sections : List Section) (hs : 0 ≤ size)
    (h : chunkyBySize file size = .ok sections) :
    (sections.map (secBytes file)).flatten = file := by
  simp only [chunkyBySize] at h
  split at h
  · rw [PlanResult.ok.injEq] at h
    subst h
    show ([secBytes file ⟨0, (file.length : Int)⟩]).flatten = file
    show secBytes file ⟨0, (file.length : Int)⟩ ++ [] = file
    rw [List.append_nil]
    show (file.drop (0 : Int).toNat).take (((file.length : Int) - 0 + 1)).toNat = file
    rw [show ((0 : Int)).toNat = 0 from rfl, List.drop_zero,
      show (((file.length : Int) - 0 + 1)).toNat = file.length + 1 from by omega]
    exact List.take_of_length_le (by omega)
  · exact chunkyLoop_concat file size hs (planFuel file) 0 [] sections le_rfl (by simp) h

/-- C1 (witness): the amended statement at the file "h\ni\n" with size 2. -/
theorem C1_concat_reproduces_file_witness :
    (0 : Int) ≤ 2 ∧
    chunkyBySize [104, 10, 105, 10] 2 = .ok [⟨0, 1⟩, ⟨2, 3⟩] ∧
    (([⟨0, 1⟩, ⟨2, 3⟩] : List Section).map (secBytes [104, 10, 105, 10])).flatten
      = [104, 10, 105, 10] :=
  ⟨by decide, by decide,
    C1_concat_reproduces_file [104, 10, 105, 10] 2 [⟨0, 1⟩, ⟨2, 3⟩]
      (by decide) (by decide)⟩

/-! ### Claim C2 -/

/-- C2: at a planning step with offset `offset` and ideal cut
`offset + size < fileSize`, the planner reads the lookback window of
`min 4096 size` bytes ending at the ideal cut; that window is fully read,
and when it contains a terminator the emitted cut equals
`ideal - window + (index of the last terminator in the window)`, the
emitted section is `[offset, cut]`, and the next offset is `cut + 1`. -/
theorem C2_window_cut (file : List Byte) (size offset : Int)
    (hs : 0 ≤ size) (ho : 0 ≤ offset)
    (hideal : offset + size < (file.length : Int))
    (hterm : 0 ≤ lastIndexByte
      (readAtBuf file (offset + size - pageOf size) (pageOf size).toNat) nl) :
    (readAtBuf file (offset + size - pageOf size) (pageOf size).toNat).length
      = (pageOf size).toNat ∧
    planStep file size offset = .emit
      ⟨offset, offset + size - pageOf size + lastIndexByte
        (readAtBuf file (offset + size - pageOf size) (pageOf size).toNat) nl⟩
      (offset + size - pageOf size + lastIndexByte
        (readAtBuf file (offset + size - pageOf size) (pageOf size).toNat) nl + 1) := by
  rcases planStep_spec file size offset hs ho with ⟨hge, _⟩ |
    ⟨hlt, cut, hstep, _, _, hcase⟩
  · omega
  · rcases hcase with ⟨_, hov⟩ | ⟨_, hfull, hcut, _⟩
    · omega
    · rw [hcut] at hstep
      exact ⟨hfull, hstep⟩

/-- C2 (witness): the step at offset 0 of the file "a\nb\n" with size 2. -/
theorem C2_window_cut_witness :
    (0 : Int) ≤ 2 ∧ (0 : Int) ≤ 0 ∧
    (0 : Int) + 2 < ((([97, 10, 98, 10] : List Byte)).length : Int) ∧
    0 ≤ lastIndexByte
      (readAtBuf [97, 10, 98, 10] (0 + 2 - pageOf 2) (pageOf 2).toNat) nl ∧
    ((readAtBuf [97, 10, 98, 10] (0 + 2 - pageOf 2) (pageOf 2).toNat).length
        = (pageOf 2).toNat ∧
      planStep [97, 10, 98, 10] 2 0 = .emit
        ⟨0, 0 + 2 - pageOf 2 + lastIndexByte
          (readAtBuf [97, 10, 98, 10] (0 + 2 - pageOf 2) (pageOf 2).toNat) nl⟩
        (0 + 2 - pageOf 2 + lastIndexByte
          (readAtBuf [97, 10, 98, 10] (0 + 2 - pageOf 2) (pageOf 2).toNat) nl + 1)) :=
  ⟨by decide, by decide, by decide, by decide,
    C2_window_cut [97, 10, 98, 10] 2 0 (by decide) (by decide) (by decide) (by decide)⟩

/-! ### Claim C3 -/

/-- C3 (counterexample): for the file "B\nC\n" and size 2 the planner emits
the consecutive sections {0,1} and {2,3}; every byte offset in [0,4) lies
in one of the two inclusive read ranges, so there is no byte between
consecutive sections' read ranges (the claim asserts there is exactly
one). -/
theorem C3_counterexample :
    chunkyBySize [66, 10, 67, 10] 2 = .ok [⟨0, 1⟩, ⟨2, 3⟩] ∧
    ((List.range 4).all fun b =>
      inSecB ⟨0, 1⟩ (b : Int) || inSecB ⟨2, 3⟩ (b : Int)) = true := by decide

/-- C3 (amended): when every lookback window of the file contains a
terminator and planning succeeds, the sections are produced in ascending,
non-overlapping, contiguous order covering [0, fileSize), with no byte
between consecutive read ranges: each section starts exactly one past the
previous section's inclusive end, and that end byte is a line terminator
for every non-final section. -/
theorem C3_sections_contiguous_terminated (file : List Byte) (size : Int)
    (sections : List Section) (hs : 0 ≤ size)
    (hw : windowsOK file (pageOf size).toNat = true)
    (h : chunkyBySize file size = .ok sections) :
    wellPlanned file (file.length : Int) 0 sections = true := by
  simp only [chunkyBySize] at h
  split at h
  · rw [PlanResult.ok.injEq] at h
    subst h
    simp [wellPlanned]
  · obtain ⟨suffix, hsec, hwp⟩ :=
      chunkyLoop_wellPlanned file size hs hw (planFuel file) 0 [] sections le_rfl h
    rw [List.nil_append] at hsec
    rw [hsec]
    exact hwp

/-- C3 (witness): the amended statement at the file "A\nB\n" with size 2. -/
theorem C3_sections_contiguous_terminated_witness :
    (0 : Int) ≤ 2 ∧
    windowsOK [65, 10, 66, 10] (pageOf 2).toNat = true ∧
    chunkyBySize [65, 10, 66, 10] 2 = .ok [⟨0, 1⟩, ⟨2, 3⟩] ∧
    wellPlanned [65, 10, 66, 10] (([65, 10, 66, 10] : List Byte).length : Int) 0
      [⟨0, 1⟩, ⟨2, 3⟩] = true :=
  ⟨by decide, by decide, by decide,
    C3_sections_contiguous_terminated [65, 10, 66, 10] 2 [⟨0, 1⟩, ⟨2, 3⟩]
      (by decide) (by decide) (by decide)⟩

/-! ### Claim C4 -/

/-- C4: with the all-'a' file (no terminator anywhere) and target size 2,
the planning step at offset 0 finds no terminator in its fully-read
lookback window and, instead of failing with an error, silently emits the
section {0,-1} (whose cut is not at a terminator) with next offset 0; the
whole plan never reports an error -- it never terminates at all. -/
theorem C4_no_boundary_no_error :
    planStep [97, 97, 97, 97] 2 0 = .emit ⟨0, -1⟩ 0 ∧
    chunkyBySize [97, 97, 97, 97] 2 = .diverge := by decide

/-! ### Claim C5 -/

/-- C5: the short-read branch of the cut computation (src/shred.go lines
71-73) uses the returned byte count itself as the terminator position: for
a window request of page 3 whose read returned the 2 bytes [newline, 'a'],
the code yields position 2 (the end of the truncated buffer), although the
last terminator among the returned bytes sits at index 0. -/
theorem C5_short_read_uses_count :
    chunkLast 3 2 [nl, 97] = 2 ∧ lastIndexByte [nl, 97] nl = 0 := by decide

/-! ### Claim C6 -/

/-- C6: with the one-byte terminator-free file "a" and target size 1, one
planning pass emits {0,-1} and resets the offset to 0, making zero
progress; the size-based planning loop therefore never terminates -- it
diverges for every amount of fuel. -/
theorem C6_planning_nonterminating :
    (∀ (fuel : Nat) (acc : List Section),
      chunkyLoop [97] 1 0 acc fuel = .diverge) ∧
    planStep [97] 1 0 = .emit ⟨0, -1⟩ 0 := by
  constructor
  · intro fuel
    induction fuel with
    | zero => intro acc; rfl
    | succ n ih =>
      intro acc
      have hstep : planStep [97] 1 0 = .emit ⟨0, -1⟩ 0 := by decide
      simp only [chunkyLoop, hstep]
      exact ih (acc ++ [⟨0, -1⟩])
  · decide

/-! ### Claim C7 -/

/-- C7: FileChunks pre-registers one completion per planned section
(wg.Add) before the submission loop; when the semaphore acquire fails at
the second of three sections, the loop breaks having emitted only one
completion signal, so the final wait on the barrier cannot return. -/
theorem C7_wait_blocks_on_failed_acquire :
    wgExpected [⟨0, 1⟩, ⟨2, 3⟩, ⟨4, 5⟩] = 3 ∧
    doneSignals [true, false, true] = 1 ∧
    wgWaitReturns [⟨0, 1⟩, ⟨2, 3⟩, ⟨4, 5⟩] [true, false, true] = false := by decide

/-! ### Claim C8 -/

/-- C8: whenever planning ends with an unrecoverable error (the source
cannot be opened, or a planner read fails -- the latter is in fact
impossible for a nonnegative size), ChunkFile hands no sections to
extraction and the run returns an error: no section extraction is
performed and no output file is created. -/
theorem C8_no_extraction_on_plan_error (fs : Option (List Byte)) (size : Int)
    (sections : List Section) (e : RunError) (hs : 0 ≤ size)
    (h : chunksBySizeRun fs size = (sections, some e)) :
    chunkFileRun fs size = some ([], true) := by
  match fs with
  | none => rfl
  | some file =>
    simp only [chunksBySizeRun] at h
    cases hres : chunkyBySize file size with
    | ok s =>
      rw [hres] at h
      simp at h
    | err s =>
      exact absurd hres (chunkyBySize_ne_err file size hs s)
    | diverge =>
      rw [hres] at h
      simp at h

/-- C8 (witness): a run whose source cannot be opened extracts nothing. -/
theorem C8_no_extraction_on_plan_error_witness :
    (0 : Int) ≤ 0 ∧
    chunksBySizeRun none 0 = ([], some RunError.openError) ∧
    chunkFileRun none 0 = some ([], true) :=
  ⟨by decide, by decide,
    C8_no_extraction_on_plan_error none 0 [] RunError.openError
      (by decide) (by decide)⟩

/-! ### Claim C9 -/

/-- C9 (counterexample): for the file "a\nb" of size 3 and target size
S = 3 = fileSize (so S ≥ fileSize but not S > fileSize), planning yields
two sections, not one section spanning the whole file. -/
theorem C9_counterexample :
    chunkyBySize [97, 10, 98] 3 = .ok [⟨0, 1⟩, ⟨2, 3⟩] ∧
    ([⟨0, 1⟩, ⟨2, 3⟩] : List Section).length = 2 := by decide

/-- C9 (amended): for every target size strictly greater than the file
size, planning yields exactly one section {0, fileSize}, whose byte
content is the whole file. -/
theorem C9_single_section_gt (file : List Byte) (size : Int)
    (h : (file.length : Int) < size) :
    chunkyBySize file size = .ok [⟨0, (file.length : Int)⟩] ∧
    secBytes file ⟨0, (file.length : Int)⟩ = file := by
  constructor
  · simp only [chunkyBySize]
    rw [if_pos h]
  · show (file.drop (0 : Int).toNat).take (((file.length : Int) - 0 + 1)).toNat = file
    rw [show ((0 : Int)).toNat = 0 from rfl, List.drop_zero,
      show (((file.length : Int) - 0 + 1)).toNat = file.length + 1 from by omega]
    exact List.take_of_length_le (by omega)

/-- C9 (witness): the amended statement for a 2-byte file and size 7. -/
theorem C9_single_section_gt_witness :
    ((([1, 2] : List Byte)).length : Int) < 7 ∧
    (chunkyBySize [1, 2] 7 = .ok [⟨0, (([1, 2] : List Byte).length : Int)⟩] ∧
      secBytes [1, 2] ⟨0, (([1, 2] : List Byte).length : Int)⟩ = [1, 2]) :=
  ⟨by decide, C9_single_section_gt [1, 2] 7 (by decide)⟩

/-! ### Claim C10 -/

/-- C10: for a section (start, fin) with 0 ≤ start ≤ fin < fileSize, the
reader built by Segment yields exactly the fin - start + 1 source bytes at
offsets start through fin; every read call returns at most the remaining
byte count, the cursor advances by the number of bytes actually returned,
and once the remaining count reaches zero every further read reports
end-of-stream. -/
theorem C10_segment_reader (file : List Byte) (start fin : Int) (blen : Nat)
    (h0 : 0 ≤ start) (hsf : start ≤ fin) (hf : fin < (file.length : Int))
    (hb : 0 < blen) :
    segRead file start fin blen
      = (file.drop start.toNat).take (fin - start + 1).toNat ∧
    (segRead file start fin blen).length = (fin - start + 1).toNat ∧
    (∀ m : Mreader, 0 ≤ m.size → ((m.read blen).1.length : Int) ≤ m.size) ∧
    (∀ m : Mreader, (m.read blen).2.2.offset
      = m.offset + ((m.read blen).1.length : Int)) ∧
    Mreader.read ⟨file, fin + 1, 0⟩ blen
      = ([], some RdErr.eof, ⟨file, fin + 1, 0⟩) := by
  have hmain : segRead file start fin blen
      = (file.drop start.toNat).take (fin - start + 1).toNat := by
    unfold segRead Segment
    exact readAll_drain ((fin - start + 2)).toNat file start (fin - start + 1) blen
      h0 (by omega) (by omega) hb (by omega)
  refine ⟨hmain, ?_, ?_, ?_, ?_⟩
  · rw [hmain]
    simp only [List.length_take, List.length_drop]
    omega
  · intro m hm
    exact Mreader.read_le m blen hm
  · intro m
    exact (Mreader.read_advance m blen).1
  · exact Mreader.read_exhausted ⟨file, fin + 1, 0⟩ blen rfl
      (show (0 : Int) ≤ fin + 1 by omega)
      (show fin + 1 ≤ (file.length : Int) by omega)

/-- C10 (witness): the reader for section (1,2) of a 4-byte file with a
1-byte read buffer. -/
theorem C10_segment_reader_witness :
    (0 : Int) ≤ 1 ∧ (1 : Int) ≤ 2 ∧
    (2 : Int) < (([3, 4, 5, 6] : List Byte).length : Int) ∧ 0 < 1 ∧
    (segRead [3, 4, 5, 6] 1 2 1
        = (([3, 4, 5, 6] : List Byte).drop (1 : Int).toNat).take
          ((2 : Int) - 1 + 1).toNat ∧
      (segRead [3, 4, 5, 6] 1 2 1).length = ((2 : Int) - 1 + 1).toNat ∧
      (∀ m : Mreader, 0 ≤ m.size → ((m.read 1).1.length : Int) ≤ m.size) ∧
      (∀ m : Mreader, (m.read 1).2.2.offset
        = m.offset + ((m.read 1).1.length : Int)) ∧
      Mreader.read ⟨[3, 4, 5, 6], 2 + 1, 0⟩ 1
        = ([], some RdErr.eof, ⟨[3, 4, 5, 6], 2 + 1, 0⟩)) :=
  ⟨by decide, by decide, by decide, by decide,
    C10_segment_reader [3, 4, 5, 6] 1 2 1 (by decide) (by decide) (by decide)
      (by decide)⟩

end Shred
